import Mathlib

/-!
Verification of counter_code: line counting per language

A shallow embedding of `src/go/main.go`.

* Go strings are modelled by `String` (files are read as UTF-8 text); the
  functions of package `strings` and `path/filepath` that the program calls are
  modelled on the character list of the string.
* Go `int` counters are modelled by `Int`; a counter grows by one per line read,
  so it stays far below `2^63`.
* The file system is an explicit parameter: what `os.Stat` answers, the lines
  `bufio.Scanner` yields for a file that `os.Open` opens, and the sequence of
  callback invocations `filepath.Walk` makes for a directory.
* The messages written with `fmt.Printf` are not modelled.
-/

namespace CounterCode

/-! ## Package `strings` and `path/filepath` -/

/-- Go `unicode.IsSpace`: the white-space code points. -/
def isSpace (c : Char) : Bool :=
  let r := c.toNat
  (0x09 ≤ r && r ≤ 0x0D) || r == 0x20 || r == 0x85 || r == 0xA0 || r == 0x1680 ||
    (0x2000 ≤ r && r ≤ 0x200A) || r == 0x2028 || r == 0x2029 || r == 0x202F ||
    r == 0x205F || r == 0x3000

/-- Go `strings.TrimLeftFunc s unicode.IsSpace` on a character list. -/
def trimLeft (l : List Char) : List Char :=
  l.dropWhile isSpace

/-- Go `strings.TrimRightFunc s unicode.IsSpace` on a character list. -/
def trimRight (l : List Char) : List Char :=
  (l.reverse.dropWhile isSpace).reverse

/-- Go `strings.TrimSpace`: leading and trailing white space removed. -/
def TrimSpace (s : String) : String :=
  ⟨trimRight (trimLeft s.data)⟩

/-- Go `strings.HasPrefix s pre`. -/
def HasPrefix (s pre : String) : Bool :=
  pre.data.isPrefixOf s.data

/-- Substring search on character lists: `sub` starts at some position of `s`. -/
def containsList : List Char → List Char → Bool
  | [], sub => sub.isEmpty
  | c :: s, sub => sub.isPrefixOf (c :: s) || containsList s sub

/-- Go `strings.Contains s substr`. -/
def Contains (s substr : String) : Bool :=
  containsList s.data substr.data

/-- Go `strings.TrimPrefix s pre`. -/
def TrimPrefix (s pre : String) : String :=
  if HasPrefix s pre then ⟨s.data.drop pre.data.length⟩ else s

/-- The loop of Go `filepath.Ext`, run on the reversed path: walk back from the
last character, stop at a path separator, return the suffix from the first dot met. -/
def extRev : List Char → List Char → List Char
  | [], _ => []
  | c :: rest, acc =>
    if c = '/' then []
    else if c = '.' then '.' :: acc
    else extRev rest (c :: acc)

/-- Go `filepath.Ext`: the suffix beginning at the final dot of the final path
element, empty when there is no dot. -/
def Ext (path : String) : String :=
  ⟨extRev path.data.reverse []⟩

/-! ## Data model -/

/-- The struct `CommentRules`. -/
structure CommentRules where
  singleLine : String
  multiLineStart : String
  multiLineEnd : String
deriving DecidableEq, Repr

/-- The struct `CommentRulesRegistry`: its field `rules`, a `map[string]CommentRules`. -/
structure CommentRulesRegistry where
  rules : String → Option CommentRules

/-- The method `register`. -/
def CommentRulesRegistry.register (r : CommentRulesRegistry)
    (language singleLine multiLineStart multiLineEnd : String) : CommentRulesRegistry :=
  { rules := fun k =>
      if k = language then some ⟨singleLine, multiLineStart, multiLineEnd⟩ else r.rules k }

/-- The method `getRules`: the rule and whether it exists. -/
def CommentRulesRegistry.getRules (r : CommentRulesRegistry) (language : String) :
    Option CommentRules :=
  r.rules language

/-- The registry `main` builds. -/
def mainRegistry : CommentRulesRegistry :=
  ((((CommentRulesRegistry.mk (fun _ => none)).register "python" "#" "\"\"\"" "\"\"\"").register
    "javascript" "//" "/*" "*/").register "go" "//" "/*" "*/").register
    "cpp" "//" "/*" "*/" |>.register "java" "//" "/*" "*/"

/-- What `os.Stat` answers for a path: `notExist` is an error for which `os.IsNotExist`
holds (ENOENT); `failed` is any other error, such as ENOTDIR for a path below a regular
file, which does not exist either, or EACCES; `file` and `dir` are a nil error with
`IsDir()` false and true. -/
inductive StatResult where
  | notExist
  | failed
  | file
  | dir
deriving DecidableEq, Repr

/-- One invocation of the callback of `filepath.Walk`: the path, whether
`info.IsDir()` holds, and whether the `err` argument is non-nil. -/
structure WalkEntry where
  path : String
  isDir : Bool
  err : Bool
deriving DecidableEq, Repr

/-- The file system the program reads. `openFile` is `none` when `os.Open` fails and
otherwise the texts `scanner.Text()` yields, in order, until `scanner.Scan()` is false. -/
structure FileSystem where
  stat : String → StatResult
  openFile : String → Option (List String)
  walk : String → List WalkEntry

/-- The triple `[3]int`: total, comment and blank lines. -/
abbrev Stats := Int × Int × Int

/-- The struct `CounterCodeInfo`. -/
structure CounterCodeInfo where
  languageStats : String → Option Stats
  files : List String
  readFiles : List String
  nonReadFiles : List String
  registry : CommentRulesRegistry

/-- The constructor `NewCounterCodeInfo`. -/
def NewCounterCodeInfo (files : List String) (registry : CommentRulesRegistry) :
    CounterCodeInfo :=
  { languageStats := fun _ => none, files := files, readFiles := [], nonReadFiles := [],
    registry := registry }

/-! ## The line scanner of `countLines` -/

/-- The local variables of `countLines` that the scanning loop updates. -/
structure ScanState where
  totalLines : Int
  commentLines : Int
  blankLines : Int
  inBlockComment : Bool
deriving DecidableEq, Repr

/-- The values of the locals before the loop. -/
def ScanState.init : ScanState :=
  ⟨0, 0, 0, false⟩

/-- One iteration of the loop `for scanner.Scan()`, on the text of the line read. -/
def scanLine (rules : CommentRules) (st : ScanState) (text : String) : ScanState :=
  let line := TrimSpace text
  let st := { st with totalLines := st.totalLines + 1 }
  if line = "" then
    { st with blankLines := st.blankLines + 1 }
  else if st.inBlockComment then
    let st := { st with commentLines := st.commentLines + 1 }
    if Contains line rules.multiLineEnd then { st with inBlockComment := false } else st
  else if HasPrefix line rules.singleLine then
    { st with commentLines := st.commentLines + 1 }
  else if Contains line rules.multiLineStart then
    let st := { st with commentLines := st.commentLines + 1, inBlockComment := true }
    if Contains line rules.multiLineEnd then { st with inBlockComment := false } else st
  else
    st

/-- The whole loop, from a given state, over the lines the scanner yields. -/
def scanLines (rules : CommentRules) (st : ScanState) (lines : List String) : ScanState :=
  lines.foldl (scanLine rules) st

/-- The method `countLines`: `(0, 0, 0)` when the language has no rule or the file
does not open, else the counters after the loop. -/
def countLines (c : CounterCodeInfo) (fs : FileSystem) (filename language : String) : Stats :=
  match c.registry.getRules language with
  | none => (0, 0, 0)
  | some rules =>
    match fs.openFile filename with
    | none => (0, 0, 0)
    | some lines =>
      let st := scanLines rules ScanState.init lines
      (st.totalLines, st.commentLines, st.blankLines)

/-! ## Language detection and aggregation -/

/-- The table `extensionMap` of `detectLanguage`. -/
def extensionMap : List (String × String) :=
  [("py", "python"), ("js", "javascript"), ("go", "go"), ("cpp", "cpp"), ("h", "cpp"),
    ("mod", "go"), ("java", "java")]

/-- The method `detectLanguage`: the language and whether it exists, and the receiver
with the path appended to `readFiles` or to `nonReadFiles`. -/
def detectLanguage (c : CounterCodeInfo) (filename : String) :
    (String × Bool) × CounterCodeInfo :=
  let ext := TrimPrefix (Ext filename) "."
  match extensionMap.lookup ext with
  | some language => ((language, true), { c with readFiles := c.readFiles ++ [filename] })
  | none => (("", false), { c with nonReadFiles := c.nonReadFiles ++ [filename] })

/-- Reading a Go map of `[3]int`: the zero value for an absent key. -/
def mapGet (m : String → Option Stats) (k : String) : Stats :=
  (m k).getD (0, 0, 0)

/-- Assigning to a key of a Go map. -/
def mapSet (m : String → Option Stats) (k : String) (v : Stats) : String → Option Stats :=
  fun k' => if k' = k then some v else m k'

/-- The method `processFile`. -/
def processFile (fs : FileSystem) (c : CounterCodeInfo) (filename : String) : CounterCodeInfo :=
  let r := detectLanguage c filename
  let language := r.1.1
  let c := r.2
  if r.1.2 then
    let counts := countLines c fs filename language
    let stats := mapGet c.languageStats language
    let stats := (stats.1 + counts.1, stats.2.1 + counts.2.1, stats.2.2 + counts.2.2)
    { c with languageStats := mapSet c.languageStats language stats }
  else
    c

/-- The callback `processDirectory` passes to `filepath.Walk`: the receiver after the
call and whether the callback returns a non-nil error. -/
def walkFn (fs : FileSystem) (c : CounterCodeInfo) (e : WalkEntry) : CounterCodeInfo × Bool :=
  if e.err then
    (c, true)
  else if !e.isDir then
    let r := detectLanguage c e.path
    let language := r.1.1
    let c := r.2
    if r.1.2 then
      let counts := countLines c fs e.path language
      let stats := mapGet c.languageStats language
      let stats := (stats.1 + counts.1, stats.2.1 + counts.2.1, stats.2.2 + counts.2.2)
      ({ c with languageStats := mapSet c.languageStats language stats }, false)
    else
      (c, false)
  else
    (c, false)

/-- The traversal of `filepath.Walk`: the callback is invoked entry by entry and the walk
ends at the first invocation that returns an error. -/
def walkLoop (fs : FileSystem) : CounterCodeInfo → List WalkEntry → CounterCodeInfo
  | c, [] => c
  | c, e :: es =>
    let r := walkFn fs c e
    if r.2 then r.1 else walkLoop fs r.1 es

/-- The method `processDirectory`; the error `filepath.Walk` returns is dropped. -/
def processDirectory (fs : FileSystem) (c : CounterCodeInfo) (directory : String) :
    CounterCodeInfo :=
  walkLoop fs c (fs.walk directory)

/-- The loop of the method `run` over the input paths. `none` is the run-time panic of
`fileInfo.IsDir()` on the nil `fileInfo` that `os.Stat` returns with an error other than
"not exist". -/
def runLoop (fs : FileSystem) : CounterCodeInfo → List String → Option CounterCodeInfo
  | c, [] => some c
  | c, filename :: rest =>
    match fs.stat filename with
    | StatResult.notExist =>
      runLoop fs { c with nonReadFiles := c.nonReadFiles ++ [filename] } rest
    | StatResult.failed => none
    | StatResult.dir => runLoop fs (processDirectory fs c filename) rest
    | StatResult.file => runLoop fs (processFile fs c filename) rest

/-- The method `run`. -/
def run (fs : FileSystem) (c : CounterCodeInfo) : Option CounterCodeInfo :=
  runLoop fs c c.files

/-! ## Notions used to state the properties -/

/-- The Go rule as `main` registers it. -/
def goRules : CommentRules :=
  ⟨"//", "/*", "*/"⟩

/-- The line is empty after trimming white space. -/
def isBlank (text : String) : Bool :=
  decide (TrimSpace text = "")

/-- The number of lines that are empty after trimming. -/
def blankCount (lines : List String) : Int :=
  (lines.countP isBlank : Nat)

/-- The number of lines that are not empty after trimming. -/
def nonBlankCount (lines : List String) : Int :=
  (lines.countP (fun text => !isBlank text) : Nat)

/-- The number of iterations of the scanning loop, run from `st` over `lines`, that
increment neither `commentLines` nor `blankLines`: the code lines. -/
def codeLineCount (rules : CommentRules) : ScanState → List String → Int
  | _, [] => 0
  | st, text :: rest =>
    let st' := scanLine rules st text
    (if st'.commentLines = st.commentLines ∧ st'.blankLines = st.blankLines then 1 else 0)
      + codeLineCount rules st' rest

/-- ASCII lower-casing of a string, used to state case-insensitive matching. -/
def lowerCased (s : String) : String :=
  ⟨s.data.map Char.toLower⟩

/-- Component-wise sum of two triples. -/
def addStats (a b : Stats) : Stats :=
  (a.1 + b.1, a.2.1 + b.2.1, a.2.2 + b.2.2)

/-- The regular files a traversal yields: the paths of the callback invocations made
for a non-directory, up to the first invocation that carries an error. -/
def visitedFiles : List WalkEntry → List String
  | [] => []
  | e :: es =>
    if e.err then []
    else if e.isDir then visitedFiles es
    else e.path :: visitedFiles es

/-- Classifying one file alone: the totals of `language` after `processFile` on the
file from the empty aggregate. -/
def classifyAlone (fs : FileSystem) (registry : CommentRulesRegistry)
    (filename language : String) : Stats :=
  mapGet (processFile fs (NewCounterCodeInfo [filename] registry) filename).languageStats language

/-- The sum, for one language, of the triples of the files classified alone. -/
def sumAlone (fs : FileSystem) (registry : CommentRulesRegistry) (language : String) :
    List String → Stats
  | [] => (0, 0, 0)
  | filename :: rest =>
    addStats (classifyAlone fs registry filename language) (sumAlone fs registry language rest)

/-- The Python rule as `main` registers it. -/
def pythonRules : CommentRules :=
  ⟨"#", "\"\"\"", "\"\"\""⟩

/-- The visits of a run over the input paths, in order, each with whether the path
exists: an input path that does not exist, an input path that is a regular file, and,
for an input path that is a directory, the regular files its traversal yields. -/
def inputVisits (fs : FileSystem) : List String → List (String × Bool)
  | [] => []
  | filename :: rest =>
    (match fs.stat filename with
      | StatResult.notExist => [(filename, false)]
      | StatResult.failed => []
      | StatResult.dir => (visitedFiles (fs.walk filename)).map (fun p => (p, true))
      | StatResult.file => [(filename, true)]) ++ inputVisits fs rest

/-- The visit is one of an existing file whose extension is a key of the table. -/
def isRecognized (v : String × Bool) : Bool :=
  v.2 && (extensionMap.lookup (TrimPrefix (Ext v.1) ".")).isSome

/-- The effect of one visit on the receiver: `processFile` for a file that exists, and
for a path that does not exist the append to `nonReadFiles` that `run` makes. -/
def recordVisit (fs : FileSystem) (c : CounterCodeInfo) (v : String × Bool) : CounterCodeInfo :=
  if v.2 then processFile fs c v.1
  else { c with nonReadFiles := c.nonReadFiles ++ [v.1] }

/-- The two lists of recorded paths of a receiver: processed and skipped. -/
def recordedLists (c : CounterCodeInfo) : List String × List String :=
  (c.readFiles, c.nonReadFiles)

/-- A file system holding the regular file `main.go` and nothing else. The path
`main.go/x` does not exist: `os.Stat` fails on it with ENOTDIR, an error for which
`os.IsNotExist` is false, and `os.Open` fails on it too. -/
def fileBelowFile : FileSystem :=
  { stat := fun p =>
      if p = "main.go" then StatResult.file
      else if p = "main.go/x" then StatResult.failed
      else StatResult.notExist,
    openFile := fun p => if p = "main.go" then some ["package main"] else none,
    walk := fun _ => [] }

/-- A file system holding one directory `dir` with the regular file `dir/a.go` in it. -/
def oneDirectory : FileSystem :=
  { stat := fun p =>
      if p = "dir" then StatResult.dir
      else if p = "dir/a.go" then StatResult.file
      else StatResult.notExist,
    openFile := fun p => if p = "dir/a.go" then some ["package a"] else none,
    walk := fun p =>
      if p = "dir" then [⟨"dir", true, false⟩, ⟨"dir/a.go", false, false⟩] else [] }

/-- A file system holding one regular file, `filename`, with the given lines. -/
def oneFile (filename : String) (lines : List String) : FileSystem :=
  { stat := fun p => if p = filename then StatResult.file else StatResult.notExist,
    openFile := fun p => if p = filename then some lines else none,
    walk := fun _ => [] }

/-- A file system holding two regular files with the given lines. -/
def twoFiles (first : String) (firstLines : List String) (second : String)
    (secondLines : List String) : FileSystem :=
  { stat := fun p => if p = first ∨ p = second then StatResult.file else StatResult.notExist,
    openFile := fun p =>
      if p = first then some firstLines else if p = second then some secondLines else none,
    walk := fun _ => [] }

/-! ## Lemmas on the string functions -/

theorem containsList_iff (s sub : List Char) : containsList s sub = true ↔ sub <:+: s := by
  induction s with
  | nil => simp [containsList, List.isEmpty_iff]
  | cons c s ih =>
    simp only [containsList, Bool.or_eq_true, ih, List.isPrefixOf_iff_prefix,
      List.infix_cons_iff]

theorem trimSpace_substring (text : String) : (TrimSpace text).data <:+: text.data := by
  have h1 : trimRight (trimLeft text.data) <+: trimLeft text.data := by
    unfold trimRight
    have hs : List.dropWhile isSpace (trimLeft text.data).reverse <:+
        (trimLeft text.data).reverse := List.dropWhile_suffix isSpace
    have h := List.reverse_prefix.mpr hs
    simpa using h
  have h2 : trimLeft text.data <:+ text.data := List.dropWhile_suffix isSpace
  exact h1.isInfix.trans h2.isInfix

theorem contains_of_trimSpace (text m : String) (h : Contains (TrimSpace text) m = true) :
    Contains text m = true := by
  unfold Contains at *
  rw [containsList_iff] at *
  exact h.trans (trimSpace_substring text)

theorem contains_of_hasPrefix (s m : String) (h : HasPrefix s m = true) :
    Contains s m = true := by
  unfold HasPrefix at h
  unfold Contains
  rw [containsList_iff]
  exact List.IsPrefix.isInfix ( List.isPrefixOf_iff_prefix.mp h)

theorem ne_empty_of_contains (s m : String) (hm : m ≠ "") (h : Contains s m = true) :
    s ≠ "" := by
  intro hs
  subst hs
  unfold Contains at h
  rw [containsList_iff] at h
  have : m.data = [] := by simpa using h
  exact hm (String.ext this)

/-! ## Lemmas on the scanning loop -/

theorem scanLine_blank (rules : CommentRules) (st : ScanState) (text : String)
    (h : TrimSpace text = "") :
    scanLine rules st text =
      ⟨st.totalLines + 1, st.commentLines, st.blankLines + 1, st.inBlockComment⟩ := by
  simp [scanLine, h]

theorem scanLine_in_block (rules : CommentRules) (st : ScanState) (text : String)
    (h : TrimSpace text ≠ "") (hin : st.inBlockComment = true)
    (hno : Contains (TrimSpace text) rules.multiLineEnd = false) :
    scanLine rules st text =
      ⟨st.totalLines + 1, st.commentLines + 1, st.blankLines, true⟩ := by
  simp [scanLine, h, hin, hno]

theorem scanLine_totalLines (rules : CommentRules) (st : ScanState) (text : String) :
    (scanLine rules st text).totalLines = st.totalLines + 1 := by
  simp only [scanLine]
  split_ifs <;> rfl

theorem scanLine_step (rules : CommentRules) (st : ScanState) (text : String) :
    ((scanLine rules st text).commentLines = st.commentLines + 1 ∧
        (scanLine rules st text).blankLines = st.blankLines) ∨
      ((scanLine rules st text).commentLines = st.commentLines ∧
        (scanLine rules st text).blankLines = st.blankLines + 1) ∨
      ((scanLine rules st text).commentLines = st.commentLines ∧
        (scanLine rules st text).blankLines = st.blankLines) := by
  simp only [scanLine]
  split_ifs <;> simp

theorem scanLines_nil (rules : CommentRules) (st : ScanState) : scanLines rules st [] = st :=
  rfl

theorem scanLines_cons (rules : CommentRules) (st : ScanState) (text : String)
    (rest : List String) :
    scanLines rules st (text :: rest) = scanLines rules (scanLine rules st text) rest :=
  rfl

theorem scanLines_append (rules : CommentRules) (st : ScanState) (xs ys : List String) :
    scanLines rules st (xs ++ ys) = scanLines rules (scanLines rules st xs) ys := by
  simp [scanLines, List.foldl_append]

theorem scanLines_counts (rules : CommentRules) (lines : List String) (st : ScanState) :
    (scanLines rules st lines).totalLines = st.totalLines + lines.length ∧
      st.commentLines ≤ (scanLines rules st lines).commentLines ∧
      st.blankLines ≤ (scanLines rules st lines).blankLines ∧
      0 ≤ codeLineCount rules st lines ∧
      ((scanLines rules st lines).commentLines - st.commentLines) +
        ((scanLines rules st lines).blankLines - st.blankLines) +
        codeLineCount rules st lines = lines.length := by
  induction lines generalizing st with
  | nil => simp [scanLines_nil, codeLineCount]
  | cons text rest ih =>
    obtain ⟨h1, h2, h3, h4, h5⟩ := ih (scanLine rules st text)
    have ht := scanLine_totalLines rules st text
    have hs := scanLine_step rules st text
    simp only [scanLines_cons, codeLineCount, List.length_cons, Nat.cast_add, Nat.cast_one]
    rcases hs with ⟨hc, hb⟩ | ⟨hc, hb⟩ | ⟨hc, hb⟩
    · have hif : ¬ ((scanLine rules st text).commentLines = st.commentLines ∧
          (scanLine rules st text).blankLines = st.blankLines) := by
        rw [hc]; intro h; omega
      rw [if_neg hif]
      refine ⟨?_, ?_, ?_, ?_, ?_⟩ <;> omega
    · have hif : ¬ ((scanLine rules st text).commentLines = st.commentLines ∧
          (scanLine rules st text).blankLines = st.blankLines) := by
        rw [hb]; intro h; omega
      rw [if_neg hif]
      refine ⟨?_, ?_, ?_, ?_, ?_⟩ <;> omega
    · rw [if_pos ⟨hc, hb⟩]
      refine ⟨?_, ?_, ?_, ?_, ?_⟩ <;> omega

theorem scanLines_in_block (rules : CommentRules) (rest : List String) (st : ScanState)
    (hin : st.inBlockComment = true)
    (hno : ∀ text ∈ rest, Contains (TrimSpace text) rules.multiLineEnd = false) :
    scanLines rules st rest =
      ⟨st.totalLines + rest.length, st.commentLines + nonBlankCount rest,
        st.blankLines + blankCount rest, true⟩ := by
  induction rest generalizing st with
  | nil =>
    cases st
    simp_all [scanLines_nil, nonBlankCount, blankCount]
  | cons text rest ih =>
    have hrest : ∀ t ∈ rest, Contains (TrimSpace t) rules.multiLineEnd = false :=
      fun t ht => hno t (List.mem_cons_of_mem _ ht)
    rw [scanLines_cons]
    by_cases hb : TrimSpace text = ""
    · have h1 : isBlank text = true := by simp [isBlank, hb]
      rw [scanLine_blank rules st text hb,
        ih ⟨st.totalLines + 1, st.commentLines, st.blankLines + 1, st.inBlockComment⟩ hin hrest]
      simp only [nonBlankCount, blankCount, List.countP_cons, h1, List.length_cons,
        ScanState.mk.injEq, and_true]
      push_cast
      simp
      omega
    · have h1 : isBlank text = false := by simp [isBlank, hb]
      rw [scanLine_in_block rules st text hb hin (hno text (List.mem_cons_self _ _)),
        ih ⟨st.totalLines + 1, st.commentLines + 1, st.blankLines, true⟩ rfl hrest]
      simp only [nonBlankCount, blankCount, List.countP_cons, h1, List.length_cons,
        ScanState.mk.injEq, and_true]
      push_cast
      simp
      omega

theorem countLines_eq (c : CounterCodeInfo) (fs : FileSystem) (filename language : String)
    (rules : CommentRules) (lines : List String)
    (hr : c.registry.getRules language = some rules)
    (ho : fs.openFile filename = some lines) :
    countLines c fs filename language =
      ((scanLines rules ScanState.init lines).totalLines,
        (scanLines rules ScanState.init lines).commentLines,
        (scanLines rules ScanState.init lines).blankLines) := by
  simp [countLines, hr, ho]

/-! ## Lemmas on detection and aggregation -/

theorem countLines_registry (c c' : CounterCodeInfo) (fs : FileSystem)
    (filename language : String) (h : c'.registry = c.registry) :
    countLines c' fs filename language = countLines c fs filename language := by
  simp [countLines, h]

theorem detectLanguage_some (c : CounterCodeInfo) (filename language : String)
    (h : extensionMap.lookup (TrimPrefix (Ext filename) ".") = some language) :
    detectLanguage c filename =
      ((language, true), { c with readFiles := c.readFiles ++ [filename] }) := by
  simp [detectLanguage, h]

theorem detectLanguage_none (c : CounterCodeInfo) (filename : String)
    (h : extensionMap.lookup (TrimPrefix (Ext filename) ".") = none) :
    detectLanguage c filename =
      (("", false), { c with nonReadFiles := c.nonReadFiles ++ [filename] }) := by
  simp [detectLanguage, h]

theorem lookup_of_mem (ext language : String)
    (h : (ext, language) ∈ [("py", "python"), ("js", "javascript"), ("go", "go"),
      ("cpp", "cpp"), ("h", "cpp"), ("mod", "go"), ("java", "java")]) :
    extensionMap.lookup ext = some language := by
  simp only [List.mem_cons, Prod.mk.injEq, List.mem_singleton, List.not_mem_nil,
    or_false] at h
  rcases h with h | h | h | h | h | h | h <;> obtain ⟨rfl, rfl⟩ := h <;> decide

theorem lookup_none_of_not_mem (ext : String)
    (h : ∀ e ∈ ["py", "js", "go", "cpp", "h", "mod", "java"], ext ≠ e) :
    extensionMap.lookup ext = none := by
  simp only [List.mem_cons, List.mem_singleton, List.not_mem_nil, or_false,
    forall_eq_or_imp, forall_eq] at h
  obtain ⟨h1, h2, h3, h4, h5, h6, h7⟩ := h
  simp only [extensionMap, List.lookup, beq_eq_false_iff_ne.mpr h1, beq_eq_false_iff_ne.mpr h2,
    beq_eq_false_iff_ne.mpr h3, beq_eq_false_iff_ne.mpr h4, beq_eq_false_iff_ne.mpr h5,
    beq_eq_false_iff_ne.mpr h6, beq_eq_false_iff_ne.mpr h7]

theorem processFile_some (fs : FileSystem) (c : CounterCodeInfo) (filename language : String)
    (h : extensionMap.lookup (TrimPrefix (Ext filename) ".") = some language) :
    processFile fs c filename =
      { c with
        readFiles := c.readFiles ++ [filename],
        languageStats := mapSet c.languageStats language
          (addStats (mapGet c.languageStats language) (countLines c fs filename language)) } := by
  simp [processFile, detectLanguage_some c filename language h, addStats, countLines]

theorem processFile_none (fs : FileSystem) (c : CounterCodeInfo) (filename : String)
    (h : extensionMap.lookup (TrimPrefix (Ext filename) ".") = none) :
    processFile fs c filename = { c with nonReadFiles := c.nonReadFiles ++ [filename] } := by
  simp [processFile, detectLanguage_none c filename h]

theorem walkFn_file (fs : FileSystem) (c : CounterCodeInfo) (path : String) :
    walkFn fs c ⟨path, false, false⟩ = (processFile fs c path, false) := by
  simp only [walkFn, processFile]
  split_ifs <;> simp_all

theorem walkLoop_eq (fs : FileSystem) (entries : List WalkEntry) (c : CounterCodeInfo) :
    walkLoop fs c entries = (visitedFiles entries).foldl (processFile fs) c := by
  induction entries generalizing c with
  | nil => rfl
  | cons e es ih =>
    obtain ⟨path, isDir, err⟩ := e
    cases err
    · cases isDir
      · simp [walkLoop, visitedFiles, walkFn_file, ih]
      · simp [walkLoop, visitedFiles, walkFn, ih]
    · simp [walkLoop, visitedFiles, walkFn]

theorem addStats_assoc (a b d : Stats) :
    addStats (addStats a b) d = addStats a (addStats b d) := by
  simp [addStats, add_assoc]

theorem processFile_registry (fs : FileSystem) (c : CounterCodeInfo) (filename : String) :
    (processFile fs c filename).registry = c.registry := by
  cases h : extensionMap.lookup (TrimPrefix (Ext filename) ".") with
  | none => rw [processFile_none fs c filename h]
  | some language => rw [processFile_some fs c filename language h]

theorem processFile_mapGet (fs : FileSystem) (c : CounterCodeInfo)
    (filename language : String) :
    mapGet (processFile fs c filename).languageStats language =
      addStats (mapGet c.languageStats language)
        (classifyAlone fs c.registry filename language) := by
  unfold classifyAlone
  cases h : extensionMap.lookup (TrimPrefix (Ext filename) ".") with
  | none =>
    rw [processFile_none fs c filename h, processFile_none fs _ filename h]
    simp [mapGet, NewCounterCodeInfo, addStats]
  | some found =>
    rw [processFile_some fs c filename found h, processFile_some fs _ filename found h,
      countLines_registry (NewCounterCodeInfo [filename] c.registry) c fs filename found rfl]
    by_cases hl : language = found
    · subst hl
      simp [mapGet, mapSet, NewCounterCodeInfo, addStats]
    · simp [mapGet, mapSet, NewCounterCodeInfo, addStats, hl]

theorem foldl_processFile_mapGet (fs : FileSystem) (language : String) (files : List String)
    (c : CounterCodeInfo) :
    mapGet (files.foldl (processFile fs) c).languageStats language =
      addStats (mapGet c.languageStats language) (sumAlone fs c.registry language files) := by
  induction files generalizing c with
  | nil => simp [sumAlone, addStats]
  | cons filename rest ih =>
    rw [List.foldl_cons, ih, processFile_mapGet, processFile_registry, addStats_assoc]
    rfl

/-! ## The claims -/

/-- C1: under the Go rule that `main` registers, `countLines` on the file with lines
"package main", "", "// hi", "/* block", "still in block", "end */", "code()" returns
total 7, comment 4, blank 1, and 2 lines are left as code. -/
theorem countLines_go_example (c : CounterCodeInfo) (fs : FileSystem) (filename : String)
    (hr : c.registry.getRules "go" = some goRules)
    (ho : fs.openFile filename = some
      ["package main", "", "// hi", "/* block", "still in block", "end */", "code()"]) :
    countLines c fs filename "go" = (7, 4, 1) ∧
      codeLineCount goRules ScanState.init
        ["package main", "", "// hi", "/* block", "still in block", "end */", "code()"] = 2 := by
  constructor
  · rw [countLines_eq c fs filename "go" goRules _ hr ho]
    decide
  · decide

theorem countLines_go_example_witness :
    mainRegistry.getRules "go" = some goRules ∧
      countLines (NewCounterCodeInfo ["main.go"] mainRegistry)
        (oneFile "main.go"
          ["package main", "", "// hi", "/* block", "still in block", "end */", "code()"])
        "main.go" "go" = (7, 4, 1) :=
  ⟨by decide,
    (countLines_go_example (NewCounterCodeInfo ["main.go"] mainRegistry)
      (oneFile "main.go"
        ["package main", "", "// hi", "/* block", "still in block", "end */", "code()"])
      "main.go" (by decide) (by decide)).1⟩

/-- C2: for every rule and every sequence of lines, the triple `countLines` returns has
all components non-negative, its total is the number of lines, comment + blank is at most
the total, and total = comment + blank + code with code, the number of lines counted
neither as comment nor as blank, non-negative; no line is counted both as comment and as
blank. -/
theorem countLines_invariant (c : CounterCodeInfo) (fs : FileSystem)
    (filename language : String) (rules : CommentRules) (lines : List String)
    (hr : c.registry.getRules language = some rules)
    (ho : fs.openFile filename = some lines) :
    0 ≤ (countLines c fs filename language).1 ∧
      0 ≤ (countLines c fs filename language).2.1 ∧
      0 ≤ (countLines c fs filename language).2.2 ∧
      (countLines c fs filename language).1 = lines.length ∧
      (countLines c fs filename language).2.1 + (countLines c fs filename language).2.2
        ≤ (countLines c fs filename language).1 ∧
      0 ≤ codeLineCount rules ScanState.init lines ∧
      (countLines c fs filename language).1 =
        (countLines c fs filename language).2.1 + (countLines c fs filename language).2.2
          + codeLineCount rules ScanState.init lines ∧
      ∀ (st : ScanState) (text : String),
        (scanLine rules st text).commentLines = st.commentLines ∨
          (scanLine rules st text).blankLines = st.blankLines := by
  rw [countLines_eq c fs filename language rules lines hr ho]
  obtain ⟨h1, h2, h3, h4, h5⟩ := scanLines_counts rules lines ScanState.init
  simp only [ScanState.init] at h1 h2 h3 h4 h5 ⊢
  refine ⟨by omega, by omega, by omega, by omega, by omega, by omega, by omega, ?_⟩
  intro st text
  rcases scanLine_step rules st text with h | h | h
  · exact Or.inr h.2
  · exact Or.inl h.1
  · exact Or.inl h.1

theorem countLines_invariant_witness :
    (countLines (NewCounterCodeInfo ["a.py"] mainRegistry)
        (oneFile "a.py" ["# c", "", "x = 1"]) "a.py" "python").1 = 3 :=
  (countLines_invariant (NewCounterCodeInfo ["a.py"] mainRegistry)
    (oneFile "a.py" ["# c", "", "x = 1"]) "a.py" "python" ⟨"#", "\"\"\"", "\"\"\""⟩
    ["# c", "", "x = 1"] (by decide) (by decide)).2.2.2.1

/-- C3: when the scanner is inside a block comment after some line and no later line
contains the block-end marker, `countLines` returns its triple with the total grown by the
number of later lines, comment by the number of later lines that are non-empty after
trimming and blank by the number of the empty ones; the scanner is still inside the block
comment at the end, and each later non-empty line is counted as a comment. -/
theorem countLines_unterminated_block (c : CounterCodeInfo) (fs : FileSystem)
    (filename language : String) (rules : CommentRules) (pre rest : List String)
    (hr : c.registry.getRules language = some rules)
    (ho : fs.openFile filename = some (pre ++ rest))
    (hin : (scanLines rules ScanState.init pre).inBlockComment = true)
    (hno : ∀ text ∈ rest, Contains text rules.multiLineEnd = false) :
    countLines c fs filename language =
        ((scanLines rules ScanState.init pre).totalLines + rest.length,
          (scanLines rules ScanState.init pre).commentLines + nonBlankCount rest,
          (scanLines rules ScanState.init pre).blankLines + blankCount rest) ∧
      (scanLines rules ScanState.init (pre ++ rest)).inBlockComment = true ∧
      ∀ (a b : List String) (text : String), rest = a ++ text :: b → TrimSpace text ≠ "" →
        (scanLines rules ScanState.init (pre ++ (a ++ [text]))).commentLines =
          (scanLines rules ScanState.init (pre ++ a)).commentLines + 1 := by
  have hno' : ∀ text ∈ rest, Contains (TrimSpace text) rules.multiLineEnd = false := by
    intro text ht
    by_contra hcon
    have h1 := contains_of_trimSpace text rules.multiLineEnd (by simpa using hcon)
    rw [hno text ht] at h1
    exact Bool.false_ne_true h1
  have hrest := scanLines_in_block rules rest (scanLines rules ScanState.init pre) hin hno'
  refine ⟨?_, ?_, ?_⟩
  · rw [countLines_eq c fs filename language rules _ hr ho, scanLines_append, hrest]
  · rw [scanLines_append, hrest]
  · intro a b text hsplit htext
    have ha : ∀ t ∈ a, Contains (TrimSpace t) rules.multiLineEnd = false := by
      intro t ht
      exact hno' t (by rw [hsplit]; exact List.mem_append_left _ ht)
    have htxt : Contains (TrimSpace text) rules.multiLineEnd = false :=
      hno' text (by rw [hsplit]; simp)
    have hstate := scanLines_in_block rules a (scanLines rules ScanState.init pre) hin ha
    rw [scanLines_append, scanLines_append, scanLines_append, hstate, scanLines_cons,
      scanLines_nil, scanLine_in_block rules _ text htext rfl htxt]

theorem countLines_unterminated_block_witness :
    countLines (NewCounterCodeInfo ["a.go"] mainRegistry)
      (oneFile "a.go" ["x := 1", "/* open", "still", "", "  more  "]) "a.go" "go" = (5, 3, 1) :=
  (countLines_unterminated_block (NewCounterCodeInfo ["a.go"] mainRegistry)
    (oneFile "a.go" ["x := 1", "/* open", "still", "", "  more  "]) "a.go" "go" goRules
    ["x := 1", "/* open"] ["still", "", "  more  "]
    (by decide) (by decide) (by decide) (by decide)).1.trans (by decide)

/-- C4: for a rule whose block-start marker is non-empty, a line whose trimmed text
contains both the block-start and the block-end marker, read outside a block comment,
adds 1 to total, 1 to comment, 0 to blank and leaves `inBlockComment` false, so the next
line is scanned from a state outside any block comment. -/
theorem scanLine_block_on_one_line (rules : CommentRules) (st : ScanState) (text : String)
    (hne : rules.multiLineStart ≠ "")
    (hs : Contains (TrimSpace text) rules.multiLineStart = true)
    (he : Contains (TrimSpace text) rules.multiLineEnd = true)
    (hout : st.inBlockComment = false) :
    scanLine rules st text =
        ⟨st.totalLines + 1, st.commentLines + 1, st.blankLines, false⟩ ∧
      ∀ next : String, scanLine rules (scanLine rules st text) next =
        scanLine rules ⟨st.totalLines + 1, st.commentLines + 1, st.blankLines, false⟩ next := by
  have hline : TrimSpace text ≠ "" := ne_empty_of_contains _ _ hne hs
  have h : scanLine rules st text =
      ⟨st.totalLines + 1, st.commentLines + 1, st.blankLines, false⟩ := by
    simp only [scanLine, hout, hs, he, if_neg hline]
    split_ifs <;> simp
  exact ⟨h, fun next => by rw [h]⟩

theorem scanLine_block_on_one_line_witness :
    scanLine goRules ⟨3, 1, 1, false⟩ "  x := 1 /* note */  " = ⟨4, 2, 1, false⟩ :=
  (scanLine_block_on_one_line goRules ⟨3, 1, 1, false⟩ "  x := 1 /* note */  "
    (by decide) (by decide) (by decide) rfl).1

/-- C5 (as stated, refuted): the extension of "Main.GO" lower-cased is `go`, a key of
the table, yet `detectLanguage` does not recognize the path and records it as skipped,
not as processed. -/
theorem detectLanguage_upper_case_unrecognized :
    extensionMap.lookup (lowerCased (TrimPrefix (Ext "Main.GO") ".")) = some "go" ∧
      (detectLanguage (NewCounterCodeInfo ["Main.GO"] mainRegistry) "Main.GO").1 = ("", false) ∧
      (detectLanguage (NewCounterCodeInfo ["Main.GO"] mainRegistry) "Main.GO").2.readFiles = [] ∧
      (detectLanguage (NewCounterCodeInfo ["Main.GO"] mainRegistry) "Main.GO").2.nonReadFiles
        = ["Main.GO"] := by
  decide

/-- C5 (amended): `detectLanguage` matches the extension as written, without lower-casing:
for every path whose extension, after dropping the leading dot, is exactly one of py, js,
go, cpp, h, mod, java, it returns the language of the table with recognized = true and
appends the path to the processed list, leaving the other fields as they were. -/
theorem detectLanguage_exact_extension (c : CounterCodeInfo) (filename ext language : String)
    (hext : TrimPrefix (Ext filename) "." = ext)
    (hmem : (ext, language) ∈ [("py", "python"), ("js", "javascript"), ("go", "go"),
      ("cpp", "cpp"), ("h", "cpp"), ("mod", "go"), ("java", "java")]) :
    detectLanguage c filename =
      ((language, true), { c with readFiles := c.readFiles ++ [filename] }) :=
  detectLanguage_some c filename language (by rw [hext]; exact lookup_of_mem ext language hmem)

theorem detectLanguage_exact_extension_witness :
    (detectLanguage (NewCounterCodeInfo ["src/a.py"] mainRegistry) "src/a.py").1
      = ("python", true) :=
  congrArg Prod.fst
    (detectLanguage_exact_extension (NewCounterCodeInfo ["src/a.py"] mainRegistry) "src/a.py"
      "py" "python" (by decide) (by decide))

/-- C6: `detectLanguage` returns the mapping of the table for the final extension of the
path (py→python, js→javascript, go→go, cpp→cpp, h→cpp, mod→go, java→java) with
recognized = true and the path appended to the processed list; for every other extension,
and for a path without extension, it returns recognized = false and appends the path to
the skipped list. A `.mod` file and a `.go` file both resolve to `go`, and `processFile`
adds the counts of both to the `go` entry of `languageStats`. -/
theorem detectLanguage_table (c : CounterCodeInfo) (filename : String) :
    (∀ ext language : String,
        (ext, language) ∈ [("py", "python"), ("js", "javascript"), ("go", "go"),
          ("cpp", "cpp"), ("h", "cpp"), ("mod", "go"), ("java", "java")] →
        TrimPrefix (Ext filename) "." = ext →
        detectLanguage c filename =
          ((language, true), { c with readFiles := c.readFiles ++ [filename] })) ∧
      ((∀ e ∈ ["py", "js", "go", "cpp", "h", "mod", "java"],
          TrimPrefix (Ext filename) "." ≠ e) →
        detectLanguage c filename =
          (("", false), { c with nonReadFiles := c.nonReadFiles ++ [filename] })) ∧
      (Ext filename = "" →
        detectLanguage c filename =
          (("", false), { c with nonReadFiles := c.nonReadFiles ++ [filename] })) ∧
      (∀ (fs : FileSystem) (p q : String),
        TrimPrefix (Ext p) "." = "mod" → TrimPrefix (Ext q) "." = "go" →
        (detectLanguage c p).1 = ("go", true) ∧
          (detectLanguage (processFile fs c p) q).1 = ("go", true) ∧
          mapGet (processFile fs (processFile fs c p) q).languageStats "go" =
            addStats (addStats (mapGet c.languageStats "go") (countLines c fs p "go"))
              (countLines c fs q "go")) := by
  refine ⟨?_, ?_, ?_, ?_⟩
  · intro ext language hmem hext
    exact detectLanguage_some c filename language
      (by rw [hext]; exact lookup_of_mem ext language hmem)
  · intro h
    exact detectLanguage_none c filename (lookup_none_of_not_mem _ h)
  · intro h
    exact detectLanguage_none c filename (by rw [h]; decide)
  · intro fs p q hp hq
    have lp : extensionMap.lookup (TrimPrefix (Ext p) ".") = some "go" := by rw [hp]; decide
    have lq : extensionMap.lookup (TrimPrefix (Ext q) ".") = some "go" := by rw [hq]; decide
    refine ⟨?_, ?_, ?_⟩
    · rw [detectLanguage_some c p "go" lp]
    · rw [detectLanguage_some _ q "go" lq]
    · rw [processFile_some fs _ q "go" lq,
        countLines_registry c (processFile fs c p) fs q "go" (processFile_registry fs c p),
        processFile_some fs c p "go" lp]
      simp [mapGet, mapSet]

theorem detectLanguage_table_witness :
    (detectLanguage (NewCounterCodeInfo [] mainRegistry) "go.mod").1 = ("go", true) ∧
      (detectLanguage (NewCounterCodeInfo [] mainRegistry) "Makefile").1 = ("", false) ∧
      (detectLanguage (NewCounterCodeInfo [] mainRegistry) "notes.txt").1 = ("", false) ∧
      mapGet (processFile (twoFiles "go.mod" ["module m", ""] "main.go" ["// c", "x()", "y()"])
        (processFile (twoFiles "go.mod" ["module m", ""] "main.go" ["// c", "x()", "y()"])
          (NewCounterCodeInfo [] mainRegistry) "go.mod") "main.go").languageStats "go"
        = (5, 1, 1) :=
  ⟨congrArg Prod.fst
      ((detectLanguage_table (NewCounterCodeInfo [] mainRegistry) "go.mod").1 "mod" "go"
        (by decide) (by decide)),
    congrArg Prod.fst
      ((detectLanguage_table (NewCounterCodeInfo [] mainRegistry) "Makefile").2.2.1
        (by decide)),
    congrArg Prod.fst
      ((detectLanguage_table (NewCounterCodeInfo [] mainRegistry) "notes.txt").2.1
        (by decide)),
    (((detectLanguage_table (NewCounterCodeInfo [] mainRegistry) "go.mod").2.2.2
      (twoFiles "go.mod" ["module m", ""] "main.go" ["// c", "x()", "y()"]) "go.mod" "main.go"
      (by decide) (by decide)).2.2).trans (by decide)⟩

/-- C7: when every line is empty after trimming white space, `countLines` returns
comment 0 and blank = total = the number of lines. -/
theorem countLines_all_blank (c : CounterCodeInfo) (fs : FileSystem)
    (filename language : String) (rules : CommentRules) (lines : List String)
    (hr : c.registry.getRules language = some rules)
    (ho : fs.openFile filename = some lines)
    (hb : ∀ text ∈ lines, TrimSpace text = "") :
    countLines c fs filename language = ((lines.length : Int), 0, (lines.length : Int)) := by
  have key : ∀ (ls : List String) (st : ScanState), (∀ text ∈ ls, TrimSpace text = "") →
      scanLines rules st ls =
        ⟨st.totalLines + ls.length, st.commentLines, st.blankLines + ls.length,
          st.inBlockComment⟩ := by
    intro ls
    induction ls with
    | nil => intro st _; cases st; simp [scanLines_nil]
    | cons text rest ih =>
      intro st h
      rw [scanLines_cons, scanLine_blank rules st text (h text (List.mem_cons_self _ _)),
        ih _ (fun t ht => h t (List.mem_cons_of_mem _ ht))]
      simp only [List.length_cons, ScanState.mk.injEq, and_true, true_and]
      push_cast
      constructor <;> omega
  rw [countLines_eq c fs filename language rules lines hr ho, key lines ScanState.init hb]
  simp [ScanState.init]

theorem countLines_all_blank_witness :
    countLines (NewCounterCodeInfo ["a.js"] mainRegistry)
      (oneFile "a.js" ["", "  ", "\t"]) "a.js" "javascript" = (3, 0, 3) :=
  countLines_all_blank (NewCounterCodeInfo ["a.js"] mainRegistry)
    (oneFile "a.js" ["", "  ", "\t"]) "a.js" "javascript" ⟨"//", "/*", "*/"⟩ ["", "  ", "\t"]
    (by decide) (by decide) (by decide)

/-- C8: when no line contains the single-line prefix, the block-start marker or the
block-end marker of the rule as a substring, `countLines` returns comment 0. -/
theorem countLines_no_marker (c : CounterCodeInfo) (fs : FileSystem)
    (filename language : String) (rules : CommentRules) (lines : List String)
    (hr : c.registry.getRules language = some rules)
    (ho : fs.openFile filename = some lines)
    (hm : ∀ text ∈ lines, Contains text rules.singleLine = false ∧
      Contains text rules.multiLineStart = false ∧ Contains text rules.multiLineEnd = false) :
    (countLines c fs filename language).2.1 = 0 := by
  have step : ∀ (st : ScanState) (text : String), st.inBlockComment = false →
      Contains text rules.singleLine = false → Contains text rules.multiLineStart = false →
      (scanLine rules st text).commentLines = st.commentLines ∧
        (scanLine rules st text).inBlockComment = false := by
    intro st text hout h1 h2
    have hp : HasPrefix (TrimSpace text) rules.singleLine = false := by
      by_contra hcon
      have := contains_of_trimSpace text _ (contains_of_hasPrefix _ _ (by simpa using hcon))
      rw [h1] at this
      exact Bool.false_ne_true this
    have hc : Contains (TrimSpace text) rules.multiLineStart = false := by
      by_contra hcon
      have := contains_of_trimSpace text _ (by simpa using hcon)
      rw [h2] at this
      exact Bool.false_ne_true this
    by_cases hb : TrimSpace text = ""
    · simp [scanLine, hb, hout]
    · simp [scanLine, hb, hout, hp, hc]
  have key : ∀ (ls : List String) (st : ScanState), st.inBlockComment = false →
      (∀ text ∈ ls, Contains text rules.singleLine = false ∧
        Contains text rules.multiLineStart = false ∧
        Contains text rules.multiLineEnd = false) →
      (scanLines rules st ls).commentLines = st.commentLines := by
    intro ls
    induction ls with
    | nil => intro st _ _; rfl
    | cons text rest ih =>
      intro st hout h
      obtain ⟨h1, h2, _⟩ := h text (List.mem_cons_self _ _)
      obtain ⟨hc, hb⟩ := step st text hout h1 h2
      rw [scanLines_cons, ih _ hb (fun t ht => h t (List.mem_cons_of_mem _ ht)), hc]
  rw [countLines_eq c fs filename language rules lines hr ho]
  exact key lines ScanState.init rfl hm

theorem countLines_no_marker_witness :
    (countLines (NewCounterCodeInfo ["a.go"] mainRegistry)
      (oneFile "a.go" ["package main", "", "x := 4 / 2 * 3"]) "a.go" "go").2.1 = 0 :=
  countLines_no_marker (NewCounterCodeInfo ["a.go"] mainRegistry)
    (oneFile "a.go" ["package main", "", "x := 4 / 2 * 3"]) "a.go" "go" goRules
    ["package main", "", "x := 4 / 2 * 3"] (by decide) (by decide) (by decide)

/-- C9: when `detectLanguage` returns language L for the file, the accept step of
`processFile`, and likewise of the callback of `processDirectory`, adds the triple of
`countLines` component-wise to the entry of L in `languageStats`, taking an absent entry
as (0, 0, 0), and leaves the entry of every other language unchanged. -/
theorem processFile_accept (fs : FileSystem) (c : CounterCodeInfo)
    (filename language : String)
    (hd : (detectLanguage c filename).1 = (language, true)) :
    (∀ old : Stats, c.languageStats language = some old →
        (processFile fs c filename).languageStats language =
            some (old.1 + (countLines c fs filename language).1,
              old.2.1 + (countLines c fs filename language).2.1,
              old.2.2 + (countLines c fs filename language).2.2) ∧
          (walkFn fs c ⟨filename, false, false⟩).1.languageStats language =
            some (old.1 + (countLines c fs filename language).1,
              old.2.1 + (countLines c fs filename language).2.1,
              old.2.2 + (countLines c fs filename language).2.2)) ∧
      (c.languageStats language = none →
        (processFile fs c filename).languageStats language =
            some (0 + (countLines c fs filename language).1,
              0 + (countLines c fs filename language).2.1,
              0 + (countLines c fs filename language).2.2) ∧
          (walkFn fs c ⟨filename, false, false⟩).1.languageStats language =
            some (0 + (countLines c fs filename language).1,
              0 + (countLines c fs filename language).2.1,
              0 + (countLines c fs filename language).2.2)) ∧
      (∀ other : String, other ≠ language →
        (processFile fs c filename).languageStats other = c.languageStats other ∧
          (walkFn fs c ⟨filename, false, false⟩).1.languageStats other
            = c.languageStats other) := by
  have hl : extensionMap.lookup (TrimPrefix (Ext filename) ".") = some language := by
    cases h : extensionMap.lookup (TrimPrefix (Ext filename) ".") with
    | none =>
      rw [detectLanguage_none c filename h] at hd
      simp at hd
    | some found =>
      rw [detectLanguage_some c filename found h] at hd
      simp at hd
      rw [hd]
  rw [walkFn_file, processFile_some fs c filename language hl]
  refine ⟨?_, ?_, ?_⟩
  · intro old hold
    simp [mapSet, mapGet, addStats, hold]
  · intro hnone
    simp [mapSet, mapGet, addStats, hnone]
  · intro other hne
    simp [mapSet, hne]

theorem processFile_accept_witness :
    (processFile (oneFile "a.go" ["// c", "x := 1"])
      { NewCounterCodeInfo ["a.go"] mainRegistry with
        languageStats := mapSet (fun _ => none) "go" (10, 2, 3) } "a.go").languageStats "go"
      = some (12, 3, 3) :=
  (((processFile_accept (oneFile "a.go" ["// c", "x := 1"])
    { NewCounterCodeInfo ["a.go"] mainRegistry with
      languageStats := mapSet (fun _ => none) "go" (10, 2, 3) } "a.go" "go"
    (by decide)).1 (10, 2, 3) (by decide)).1).trans (by decide)

/-- C10: `processDirectory` leaves the receiver in the state that calling `processFile`
on the regular files F1, ..., Fn of the traversal, one after the other from the same
starting state, leaves it in; so for every language the totals in `languageStats` are the
starting totals plus the sum of the triples of the files classified alone. -/
theorem processDirectory_eq_processFile (fs : FileSystem) (c : CounterCodeInfo)
    (directory : String) :
    processDirectory fs c directory =
        (visitedFiles (fs.walk directory)).foldl (processFile fs) c ∧
      ∀ language : String,
        mapGet (processDirectory fs c directory).languageStats language =
          addStats (mapGet c.languageStats language)
            (sumAlone fs c.registry language (visitedFiles (fs.walk directory))) := by
  have h : processDirectory fs c directory =
      (visitedFiles (fs.walk directory)).foldl (processFile fs) c :=
    walkLoop_eq fs (fs.walk directory) c
  refine ⟨h, ?_⟩
  intro language
  rw [h, foldl_processFile_mapGet]

/-! ## Further lemmas -/

theorem mem_of_lookup (l : List (String × String)) (a b : String)
    (h : l.lookup a = some b) : (a, b) ∈ l := by
  induction l with
  | nil => simp [List.lookup] at h
  | cons p rest ih =>
    obtain ⟨k, v⟩ := p
    by_cases hk : a = k
    · subst hk
      simp [List.lookup] at h
      simp [h]
    · have hf : (a == k) = false := beq_eq_false_iff_ne.mpr hk
      simp only [List.lookup, hf] at h
      exact List.mem_cons_of_mem _ (ih h)

theorem lookup_values (ext language : String)
    (h : extensionMap.lookup ext = some language) :
    language ∈ ["python", "javascript", "go", "cpp", "java"] := by
  have hm : (ext, language) ∈ extensionMap := mem_of_lookup extensionMap ext language h
  simp only [extensionMap, List.mem_cons, Prod.mk.injEq, List.mem_singleton,
    List.not_mem_nil, or_false] at hm
  rcases hm with h | h | h | h | h | h | h <;> obtain ⟨_, rfl⟩ := h <;> decide

theorem lookup_of_detectLanguage (c : CounterCodeInfo) (filename language : String)
    (hd : (detectLanguage c filename).1 = (language, true)) :
    extensionMap.lookup (TrimPrefix (Ext filename) ".") = some language := by
  cases h : extensionMap.lookup (TrimPrefix (Ext filename) ".") with
  | none =>
    rw [detectLanguage_none c filename h] at hd
    simp at hd
  | some found =>
    rw [detectLanguage_some c filename found h] at hd
    simp at hd
    rw [hd]

theorem scanLine_same_marker (rules : CommentRules)
    (h : Contains rules.multiLineStart rules.multiLineEnd = true)
    (st : ScanState) (text : String) (hout : st.inBlockComment = false) :
    (scanLine rules st text).inBlockComment = false := by
  by_cases hb : TrimSpace text = ""
  · rw [scanLine_blank rules st text hb]
    exact hout
  · by_cases hp : HasPrefix (TrimSpace text) rules.singleLine = true
    · simp [scanLine, hb, hout, hp]
    · by_cases hs : Contains (TrimSpace text) rules.multiLineStart = true
      · have he : Contains (TrimSpace text) rules.multiLineEnd = true := by
          unfold Contains at *
          rw [containsList_iff] at *
          exact h.trans hs
        simp [scanLine, hb, hout, hp, hs, he]
      · simp [scanLine, hb, hout, hp, hs]

/-! ## Lemmas on the loop of `run` -/

theorem processFile_congr (fs : FileSystem) (c d : CounterCodeInfo) (filename : String)
    (hs : c.languageStats = d.languageStats) (hr : c.registry = d.registry) :
    (processFile fs c filename).languageStats = (processFile fs d filename).languageStats ∧
      (processFile fs c filename).registry = (processFile fs d filename).registry := by
  cases h : extensionMap.lookup (TrimPrefix (Ext filename) ".") with
  | none =>
    rw [processFile_none fs c filename h, processFile_none fs d filename h]
    exact ⟨hs, hr⟩
  | some language =>
    rw [processFile_some fs c filename language h, processFile_some fs d filename language h,
      countLines_registry d c fs filename language hr]
    exact ⟨by simp only [hs], hr⟩

theorem mapSet_comm (m : String → Option Stats) (ka kb : String) (a b : Stats) :
    mapSet (mapSet m ka (addStats (mapGet m ka) a)) kb
        (addStats (mapGet (mapSet m ka (addStats (mapGet m ka) a)) kb) b) =
      mapSet (mapSet m kb (addStats (mapGet m kb) b)) ka
        (addStats (mapGet (mapSet m kb (addStats (mapGet m kb) b)) ka) a) := by
  funext k
  by_cases hab : ka = kb
  · subst hab
    by_cases hk : k = ka
    · simp [mapSet, mapGet, addStats, hk, add_assoc, add_comm a.1, add_comm a.2.1,
        add_comm a.2.2]
    · simp [mapSet, hk]
  · have hba : ¬ kb = ka := fun h => hab h.symm
    by_cases hka : k = ka
    · subst hka
      simp [mapSet, mapGet, hab, hba]
    · by_cases hkb : k = kb
      · subst hkb
        simp [mapSet, mapGet, hab, hba]
      · simp [mapSet, hka, hkb]

theorem processFile_stats_some (fs : FileSystem) (c : CounterCodeInfo)
    (filename language : String)
    (h : extensionMap.lookup (TrimPrefix (Ext filename) ".") = some language) :
    (processFile fs c filename).languageStats =
      mapSet c.languageStats language
        (addStats (mapGet c.languageStats language) (countLines c fs filename language)) := by
  rw [processFile_some fs c filename language h]

theorem processFile_stats_none (fs : FileSystem) (c : CounterCodeInfo) (filename : String)
    (h : extensionMap.lookup (TrimPrefix (Ext filename) ".") = none) :
    (processFile fs c filename).languageStats = c.languageStats := by
  rw [processFile_none fs c filename h]

theorem processFile_comm (fs : FileSystem) (c : CounterCodeInfo) (a b : String) :
    (processFile fs (processFile fs c a) b).languageStats =
      (processFile fs (processFile fs c b) a).languageStats := by
  have ra := processFile_registry fs c a
  have rb := processFile_registry fs c b
  cases ha : extensionMap.lookup (TrimPrefix (Ext a) ".") with
  | none =>
    cases hb : extensionMap.lookup (TrimPrefix (Ext b) ".") with
    | none =>
      rw [processFile_stats_none fs (processFile fs c a) b hb,
        processFile_stats_none fs (processFile fs c b) a ha,
        processFile_stats_none fs c a ha, processFile_stats_none fs c b hb]
    | some lb =>
      rw [processFile_stats_some fs (processFile fs c a) b lb hb,
        processFile_stats_none fs (processFile fs c b) a ha,
        countLines_registry c (processFile fs c a) fs b lb ra,
        processFile_stats_none fs c a ha, processFile_stats_some fs c b lb hb]
  | some la =>
    cases hb : extensionMap.lookup (TrimPrefix (Ext b) ".") with
    | none =>
      rw [processFile_stats_none fs (processFile fs c a) b hb,
        processFile_stats_some fs (processFile fs c b) a la ha,
        countLines_registry c (processFile fs c b) fs a la rb,
        processFile_stats_none fs c b hb, processFile_stats_some fs c a la ha]
    | some lb =>
      rw [processFile_stats_some fs (processFile fs c a) b lb hb,
        processFile_stats_some fs (processFile fs c b) a la ha,
        countLines_registry c (processFile fs c a) fs b lb ra,
        countLines_registry c (processFile fs c b) fs a la rb,
        processFile_stats_some fs c a la ha, processFile_stats_some fs c b lb hb]
      exact mapSet_comm c.languageStats la lb _ _

theorem recordVisit_registry (fs : FileSystem) (c : CounterCodeInfo) (v : String × Bool) :
    (recordVisit fs c v).registry = c.registry := by
  unfold recordVisit
  split_ifs
  · exact processFile_registry fs c v.1
  · rfl

theorem recordVisit_congr (fs : FileSystem) (c d : CounterCodeInfo) (v : String × Bool)
    (hs : c.languageStats = d.languageStats) (hr : c.registry = d.registry) :
    (recordVisit fs c v).languageStats = (recordVisit fs d v).languageStats ∧
      (recordVisit fs c v).registry = (recordVisit fs d v).registry := by
  unfold recordVisit
  split_ifs
  · exact processFile_congr fs c d v.1 hs hr
  · exact ⟨hs, hr⟩

theorem recordVisit_comm (fs : FileSystem) (c : CounterCodeInfo) (v w : String × Bool) :
    (recordVisit fs (recordVisit fs c v) w).languageStats =
      (recordVisit fs (recordVisit fs c w) v).languageStats := by
  obtain ⟨p, pe⟩ := v
  obtain ⟨q, qe⟩ := w
  cases pe <;> cases qe
  · rfl
  · simp only [recordVisit, Bool.false_eq_true, if_false, if_true]
    exact (processFile_congr fs { c with nonReadFiles := c.nonReadFiles ++ [p] } c q rfl rfl).1
  · simp only [recordVisit, Bool.false_eq_true, if_false, if_true]
    exact ((processFile_congr fs { c with nonReadFiles := c.nonReadFiles ++ [q] } c p rfl
      rfl).1).symm
  · simp only [recordVisit, if_true]
    exact processFile_comm fs c p q

theorem foldl_recordVisit_congr (fs : FileSystem) (vs : List (String × Bool))
    (c d : CounterCodeInfo)
    (hs : c.languageStats = d.languageStats) (hr : c.registry = d.registry) :
    (vs.foldl (recordVisit fs) c).languageStats = (vs.foldl (recordVisit fs) d).languageStats ∧
      (vs.foldl (recordVisit fs) c).registry = (vs.foldl (recordVisit fs) d).registry := by
  induction vs generalizing c d with
  | nil => exact ⟨hs, hr⟩
  | cons v rest ih =>
    obtain ⟨h1, h2⟩ := recordVisit_congr fs c d v hs hr
    exact ih _ _ h1 h2

theorem foldl_recordVisit_perm (fs : FileSystem) (vs ws : List (String × Bool))
    (hp : vs.Perm ws) (c d : CounterCodeInfo)
    (hs : c.languageStats = d.languageStats) (hr : c.registry = d.registry) :
    (vs.foldl (recordVisit fs) c).languageStats = (ws.foldl (recordVisit fs) d).languageStats ∧
      (vs.foldl (recordVisit fs) c).registry = (ws.foldl (recordVisit fs) d).registry := by
  induction hp generalizing c d with
  | nil => exact ⟨hs, hr⟩
  | cons v _ ih =>
    obtain ⟨h1, h2⟩ := recordVisit_congr fs c d v hs hr
    exact ih _ _ h1 h2
  | swap v w l =>
    simp only [List.foldl_cons]
    obtain ⟨h1, h2⟩ := recordVisit_congr fs c d v hs hr
    obtain ⟨h3, h4⟩ := recordVisit_congr fs _ _ w h1 h2
    have h5 := recordVisit_comm fs c w v
    have h6 : (recordVisit fs (recordVisit fs c w) v).registry =
        (recordVisit fs (recordVisit fs d v) w).registry := by
      rw [recordVisit_registry, recordVisit_registry, recordVisit_registry,
        recordVisit_registry, hr]
    exact foldl_recordVisit_congr fs l _ _ (h5.trans h3) h6
  | trans _ _ ih1 ih2 =>
    obtain ⟨h1, h2⟩ := ih1 c d hs hr
    obtain ⟨h3, h4⟩ := ih2 d d rfl rfl
    exact ⟨h1.trans h3, h2.trans h4⟩

theorem foldl_processFile_eq_visits (fs : FileSystem) (files : List String)
    (c : CounterCodeInfo) :
    files.foldl (processFile fs) c =
      (files.map (fun p => (p, true))).foldl (recordVisit fs) c := by
  induction files generalizing c with
  | nil => rfl
  | cons f rest ih =>
    simp only [List.foldl_cons, List.map_cons]
    rw [ih]
    rfl

theorem inputVisits_perm (fs : FileSystem) (files other : List String)
    (hp : files.Perm other) : (inputVisits fs files).Perm (inputVisits fs other) := by
  induction hp with
  | nil => exact List.Perm.refl _
  | cons f _ ih =>
    simp only [inputVisits]
    exact List.Perm.append_left _ ih
  | swap f g l =>
    simp only [inputVisits, ← List.append_assoc]
    exact List.Perm.append_right _ List.perm_append_comm
  | trans _ _ ih1 ih2 => exact ih1.trans ih2

theorem runLoop_append (fs : FileSystem) (xs ys : List String) (c : CounterCodeInfo) :
    runLoop fs c (xs ++ ys) = (runLoop fs c xs).bind (fun s => runLoop fs s ys) := by
  induction xs generalizing c with
  | nil => simp [runLoop]
  | cons f rest ih =>
    simp only [List.cons_append, runLoop]
    cases fs.stat f <;> simp [ih]

theorem runLoop_eq_visits (fs : FileSystem) (files : List String) (c : CounterCodeInfo)
    (hs : ∀ f ∈ files, fs.stat f ≠ StatResult.failed) :
    runLoop fs c files = some ((inputVisits fs files).foldl (recordVisit fs) c) := by
  induction files generalizing c with
  | nil => rfl
  | cons f rest ih =>
    have hrest : ∀ g ∈ rest, fs.stat g ≠ StatResult.failed :=
      fun g hg => hs g (List.mem_cons_of_mem _ hg)
    have hf := hs f (List.mem_cons_self _ _)
    simp only [runLoop, inputVisits]
    cases hstat : fs.stat f with
    | notExist =>
      simp only [List.singleton_append, List.foldl_cons]
      rw [ih _ hrest]
      rfl
    | failed => exact absurd hstat hf
    | file =>
      simp only [List.singleton_append, List.foldl_cons]
      rw [ih _ hrest]
      rfl
    | dir =>
      simp only [List.foldl_append]
      rw [ih _ hrest, ← foldl_processFile_eq_visits]
      unfold processDirectory
      rw [walkLoop_eq]

theorem runLoop_failed (fs : FileSystem) (files : List String) (c : CounterCodeInfo)
    (hs : ∃ f ∈ files, fs.stat f = StatResult.failed) :
    runLoop fs c files = none := by
  induction files generalizing c with
  | nil => simp at hs
  | cons f rest ih =>
    simp only [runLoop]
    cases hstat : fs.stat f with
    | failed => rfl
    | notExist =>
      obtain ⟨g, hg, hgf⟩ := hs
      rcases List.mem_cons.mp hg with rfl | hg
      · rw [hstat] at hgf; cases hgf
      · exact ih _ ⟨g, hg, hgf⟩
    | file =>
      obtain ⟨g, hg, hgf⟩ := hs
      rcases List.mem_cons.mp hg with rfl | hg
      · rw [hstat] at hgf; cases hgf
      · exact ih _ ⟨g, hg, hgf⟩
    | dir =>
      obtain ⟨g, hg, hgf⟩ := hs
      rcases List.mem_cons.mp hg with rfl | hg
      · rw [hstat] at hgf; cases hgf
      · exact ih _ ⟨g, hg, hgf⟩

theorem recordVisit_lists (fs : FileSystem) (c : CounterCodeInfo) (v : String × Bool) :
    (recordVisit fs c v).readFiles = c.readFiles ++ (if isRecognized v then [v.1] else []) ∧
      (recordVisit fs c v).nonReadFiles =
        c.nonReadFiles ++ (if isRecognized v then [] else [v.1]) := by
  obtain ⟨p, pe⟩ := v
  cases pe
  · simp [recordVisit, isRecognized]
  · cases h : extensionMap.lookup (TrimPrefix (Ext p) ".") with
    | none => simp [recordVisit, isRecognized, h, processFile_none fs c p h]
    | some language =>
      simp [recordVisit, isRecognized, h, processFile_some fs c p language h]

theorem foldl_recordVisit_lists (fs : FileSystem) (vs : List (String × Bool))
    (c : CounterCodeInfo) :
    (vs.foldl (recordVisit fs) c).readFiles =
        c.readFiles ++ (vs.filter isRecognized).map Prod.fst ∧
      (vs.foldl (recordVisit fs) c).nonReadFiles =
        c.nonReadFiles ++ (vs.filter (fun v => !isRecognized v)).map Prod.fst := by
  induction vs generalizing c with
  | nil => simp
  | cons v rest ih =>
    obtain ⟨h1, h2⟩ := ih (recordVisit fs c v)
    obtain ⟨h3, h4⟩ := recordVisit_lists fs c v
    simp only [List.foldl_cons, h1, h2, h3, h4, List.filter_cons]
    cases isRecognized v <;> simp

/-! ## The claims, continued -/

/-- C11: the per-language totals do not depend on the order of the files: for a list of
files and a permutation of it, calling `processFile` on the files in either order from
the empty aggregate gives the same `languageStats` map, and so does `run` on the two
lists of input paths. -/
theorem languageStats_order_independent (fs : FileSystem) (registry : CommentRulesRegistry)
    (files other : List String) (hp : files.Perm other) :
    (files.foldl (processFile fs) (NewCounterCodeInfo files registry)).languageStats =
        (other.foldl (processFile fs) (NewCounterCodeInfo other registry)).languageStats ∧
      Option.map CounterCodeInfo.languageStats (run fs (NewCounterCodeInfo files registry)) =
        Option.map CounterCodeInfo.languageStats (run fs (NewCounterCodeInfo other registry)) := by
  constructor
  · rw [foldl_processFile_eq_visits, foldl_processFile_eq_visits]
    exact (foldl_recordVisit_perm fs _ _ (hp.map _) (NewCounterCodeInfo files registry)
      (NewCounterCodeInfo other registry) rfl rfl).1
  · simp only [run, NewCounterCodeInfo]
    by_cases hfail : ∃ f ∈ files, fs.stat f = StatResult.failed
    · have hfail2 : ∃ f ∈ other, fs.stat f = StatResult.failed := by
        obtain ⟨f, hf, hs⟩ := hfail
        exact ⟨f, hp.mem_iff.mp hf, hs⟩
      rw [runLoop_failed fs files _ hfail, runLoop_failed fs other _ hfail2]
    · have h1 : ∀ f ∈ files, fs.stat f ≠ StatResult.failed :=
        fun f hf hs => hfail ⟨f, hf, hs⟩
      have h2 : ∀ f ∈ other, fs.stat f ≠ StatResult.failed :=
        fun f hf hs => hfail ⟨f, hp.mem_iff.mpr hf, hs⟩
      rw [runLoop_eq_visits fs files _ h1, runLoop_eq_visits fs other _ h2]
      simp only [Option.map_some']
      exact congrArg some
        (foldl_recordVisit_perm fs _ _ (inputVisits_perm fs files other hp)
          (NewCounterCodeInfo files registry) (NewCounterCodeInfo other registry) rfl rfl).1

theorem languageStats_order_independent_witness :
    (["a.go", "b.py"].foldl
        (processFile (twoFiles "a.go" ["// c", "x := 1"] "b.py" ["# c", ""]))
        (NewCounterCodeInfo ["a.go", "b.py"] mainRegistry)).languageStats =
      (["b.py", "a.go"].foldl
        (processFile (twoFiles "a.go" ["// c", "x := 1"] "b.py" ["# c", ""]))
        (NewCounterCodeInfo ["b.py", "a.go"] mainRegistry)).languageStats :=
  (languageStats_order_independent (twoFiles "a.go" ["// c", "x := 1"] "b.py" ["# c", ""])
    mainRegistry ["a.go", "b.py"] ["b.py", "a.go"] (List.Perm.swap "b.py" "a.go" [])).1

/-- The branch of `run` for a path on which `os.Stat` answers "not exist" (ENOENT): the
loop appends the path to `nonReadFiles`, leaves `readFiles`, `languageStats` and the other
fields as they are, and goes on with the remaining input paths; so a run whose input list
is `pre ++ filename :: rest` is the loop over `pre`, that append, and the loop over `rest`.
A missing path on which `os.Stat` fails with another error is not covered. -/
theorem run_not_exist (fs : FileSystem) (c : CounterCodeInfo) (pre rest : List String)
    (filename : String) (hfiles : c.files = pre ++ filename :: rest)
    (h : fs.stat filename = StatResult.notExist) :
    (∀ s : CounterCodeInfo, runLoop fs s (filename :: rest) =
        runLoop fs
          ⟨s.languageStats, s.files, s.readFiles, s.nonReadFiles ++ [filename], s.registry⟩
          rest) ∧
      run fs c = (runLoop fs c pre).bind (fun s =>
        runLoop fs
          ⟨s.languageStats, s.files, s.readFiles, s.nonReadFiles ++ [filename], s.registry⟩
          rest) := by
  have step : ∀ s : CounterCodeInfo, runLoop fs s (filename :: rest) =
      runLoop fs
        ⟨s.languageStats, s.files, s.readFiles, s.nonReadFiles ++ [filename], s.registry⟩
        rest := by
    intro s
    simp [runLoop, h]
  refine ⟨step, ?_⟩
  unfold run
  rw [hfiles, runLoop_append]
  congr 1
  funext s
  exact step s

theorem run_not_exist_witness :
    Option.map recordedLists
      (run (oneFile "a.go" ["// c", "x := 1"])
        (NewCounterCodeInfo ["missing.go", "a.go"] mainRegistry))
      = some (["a.go"], ["missing.go"]) :=
  (congrArg (Option.map recordedLists)
    (run_not_exist (oneFile "a.go" ["// c", "x := 1"])
      (NewCounterCodeInfo ["missing.go", "a.go"] mainRegistry) [] ["a.go"] "missing.go"
      rfl (by decide)).2).trans (by decide)

/-- C12 (the code at the failing input): the input path `main.go/x` does not exist, below
the regular file `main.go`; `os.Stat` fails on it with ENOTDIR, the test `os.IsNotExist`
is false, and `run` calls `IsDir` on the nil `FileInfo`: the run panics. The path is
appended to no list and the next input path, `main.go`, is never processed, whereas the
run over `main.go` alone ends with `main.go` in the processed list. -/
theorem run_missing_path_below_file :
    fileBelowFile.stat "main.go/x" = StatResult.failed ∧
      fileBelowFile.openFile "main.go/x" = none ∧
      run fileBelowFile (NewCounterCodeInfo ["main.go/x", "main.go"] mainRegistry) = none ∧
      Option.map recordedLists
        (run fileBelowFile (NewCounterCodeInfo ["main.go"] mainRegistry))
        = some (["main.go"], []) := by
  refine ⟨by decide, by decide, ?_, by decide⟩
  rfl

/-- C13 (as stated, refuted): in the run over the single input path "dir", a directory
holding the file "dir/a.go", the run ends with "dir/a.go" in the processed list and the
skipped list empty: the input path "dir" is recorded in neither list. -/
theorem run_directory_not_recorded :
    oneDirectory.stat "dir" = StatResult.dir ∧
      Option.map recordedLists (run oneDirectory (NewCounterCodeInfo ["dir"] mainRegistry))
        = some (["dir/a.go"], []) ∧
      "dir" ∉ ["dir/a.go"] ∧ "dir" ∉ ([] : List String) := by
  decide

/-- C13 (amended): in a run in which `os.Stat` fails for no input path with an error
other than "not exist", the run ends and its records are those of its visits, one record
per visit, in order. The visits are: each input path that does not exist, each input path
that is a regular file, and each non-directory entry that the traversal of a directory
input yields. The visit of an existing file with an extension of the table is recorded in
`readFiles` and every other visit in `nonReadFiles`, so no visit is recorded in both and
none is left unrecorded. A directory input adds no record of its own: the records it adds
are those of the non-directory entries of its traversal, and none when there is no such
entry. -/
theorem run_records_each_visit (fs : FileSystem) (c : CounterCodeInfo)
    (hs : ∀ f ∈ c.files, fs.stat f ≠ StatResult.failed) :
    ∃ d : CounterCodeInfo, run fs c = some d ∧
      d.readFiles = c.readFiles ++ ((inputVisits fs c.files).filter isRecognized).map Prod.fst ∧
      d.nonReadFiles = c.nonReadFiles ++
        ((inputVisits fs c.files).filter (fun v => !isRecognized v)).map Prod.fst ∧
      d.readFiles.length + d.nonReadFiles.length =
        c.readFiles.length + c.nonReadFiles.length + (inputVisits fs c.files).length ∧
      ∀ (s : CounterCodeInfo) (f : String), fs.stat f = StatResult.dir →
        ∃ t : CounterCodeInfo, runLoop fs s [f] = some t ∧
          t.readFiles = s.readFiles ++
            (((visitedFiles (fs.walk f)).map (fun p => (p, true))).filter isRecognized).map
              Prod.fst ∧
          t.nonReadFiles = s.nonReadFiles ++
            (((visitedFiles (fs.walk f)).map (fun p => (p, true))).filter
              (fun v => !isRecognized v)).map Prod.fst ∧
          (visitedFiles (fs.walk f) = [] →
            t.readFiles = s.readFiles ∧ t.nonReadFiles = s.nonReadFiles) := by
  refine ⟨(inputVisits fs c.files).foldl (recordVisit fs) c,
    runLoop_eq_visits fs c.files c hs, ?_⟩
  obtain ⟨h1, h2⟩ := foldl_recordVisit_lists fs (inputVisits fs c.files) c
  refine ⟨h1, h2, ?_, ?_⟩
  · rw [h1, h2]
    simp only [List.length_append, List.length_map]
    have hlen : ∀ vs : List (String × Bool),
        (vs.filter isRecognized).length + (vs.filter (fun v => !isRecognized v)).length
          = vs.length := by
      intro vs
      induction vs with
      | nil => rfl
      | cons v rest ih =>
        simp only [List.filter_cons]
        cases isRecognized v <;> simp <;> omega
    have := hlen (inputVisits fs c.files)
    omega
  · intro s f hf
    have hok : ∀ g ∈ [f], fs.stat g ≠ StatResult.failed := by
      intro g hg
      rw [List.mem_singleton.mp hg, hf]
      decide
    have hv : inputVisits fs [f] = (visitedFiles (fs.walk f)).map (fun p => (p, true)) := by
      simp [inputVisits, hf]
    obtain ⟨h3, h4⟩ := foldl_recordVisit_lists fs (inputVisits fs [f]) s
    rw [hv] at h3 h4
    refine ⟨(inputVisits fs [f]).foldl (recordVisit fs) s,
      runLoop_eq_visits fs [f] s hok, ?_, ?_, ?_⟩
    · rw [hv]; exact h3
    · rw [hv]; exact h4
    · intro hnil
      rw [hv, hnil]
      exact ⟨rfl, rfl⟩

theorem run_records_each_visit_witness :
    Option.map recordedLists
      (run oneDirectory (NewCounterCodeInfo ["dir", "missing.go", "dir/a.go"] mainRegistry))
      = some (["dir/a.go", "dir/a.go"], ["missing.go"]) := by
  obtain ⟨d, hd, h1, h2, _⟩ := run_records_each_visit oneDirectory
    (NewCounterCodeInfo ["dir", "missing.go", "dir/a.go"] mainRegistry) (by decide)
  rw [hd]
  simp only [Option.map_some', recordedLists, h1, h2]
  decide

/-- C14: `countLines` starts every file with `inBlockComment` false, so its triple is a
function of the rule and of the lines of that file only: it is the scan of the lines from
the initial state, the same for any receiver and file system that give the same rule and
lines, and the counts for a file F2 obtained after `processFile` on a file F1 are the
counts for F2 alone, also when F1 ends inside an unterminated block comment. -/
theorem countLines_state_scoped (c : CounterCodeInfo) (fs : FileSystem)
    (f1 f2 language : String) (rules : CommentRules) (lines2 : List String)
    (hr : c.registry.getRules language = some rules)
    (ho : fs.openFile f2 = some lines2) :
    ScanState.init.inBlockComment = false ∧
      countLines c fs f2 language =
        ((scanLines rules ScanState.init lines2).totalLines,
          (scanLines rules ScanState.init lines2).commentLines,
          (scanLines rules ScanState.init lines2).blankLines) ∧
      countLines (processFile fs c f1) fs f2 language = countLines c fs f2 language ∧
      ∀ (d : CounterCodeInfo) (gs : FileSystem) (g other : String),
        d.registry.getRules other = some rules → gs.openFile g = some lines2 →
        countLines d gs g other = countLines c fs f2 language := by
  refine ⟨rfl, countLines_eq c fs f2 language rules lines2 hr ho, ?_, ?_⟩
  · exact countLines_registry c (processFile fs c f1) fs f2 language
      (processFile_registry fs c f1)
  · intro d gs g other hd hg
    rw [countLines_eq c fs f2 language rules lines2 hr ho,
      countLines_eq d gs g other rules lines2 hd hg]

theorem countLines_state_scoped_witness :
    (scanLines goRules ScanState.init ["/* open", "more"]).inBlockComment = true ∧
      countLines
        (processFile (twoFiles "a.go" ["/* open", "more"] "b.go" ["x := 1", "// c"])
          (NewCounterCodeInfo ["a.go", "b.go"] mainRegistry) "a.go")
        (twoFiles "a.go" ["/* open", "more"] "b.go" ["x := 1", "// c"]) "b.go" "go"
        = (2, 1, 0) :=
  ⟨by decide,
    ((countLines_state_scoped (NewCounterCodeInfo ["a.go", "b.go"] mainRegistry)
      (twoFiles "a.go" ["/* open", "more"] "b.go" ["x := 1", "// c"]) "a.go" "b.go" "go"
      goRules ["x := 1", "// c"] (by decide) (by decide)).2.2.1).trans (by decide)⟩

/-- C15: for a language without a rule in the registry, `countLines` returns (0, 0, 0)
for every file; when `detectLanguage` gives that language for the file, `processFile`
leaves the totals of the language, and the entry of every other language, at their
previous value, and the loop of `run` goes on with the next path. -/
theorem countLines_no_rule (c : CounterCodeInfo) (fs : FileSystem)
    (filename language : String)
    (hr : c.registry.getRules language = none) :
    countLines c fs filename language = (0, 0, 0) ∧
      ((detectLanguage c filename).1 = (language, true) →
        mapGet (processFile fs c filename).languageStats language
            = mapGet c.languageStats language ∧
          (∀ other : String, other ≠ language →
            (processFile fs c filename).languageStats other = c.languageStats other) ∧
          ∀ rest : List String, fs.stat filename = StatResult.file →
            runLoop fs c (filename :: rest) = runLoop fs (processFile fs c filename) rest) := by
  have h0 : countLines c fs filename language = (0, 0, 0) := by
    simp [countLines, hr]
  refine ⟨h0, ?_⟩
  intro hd
  have hl := lookup_of_detectLanguage c filename language hd
  refine ⟨?_, ?_, ?_⟩
  · rw [processFile_some fs c filename language hl, h0]
    simp [mapGet, mapSet, addStats]
  · intro other hne
    rw [processFile_some fs c filename language hl]
    simp [mapSet, hne]
  · intro rest hs
    simp [runLoop, hs]

theorem countLines_no_rule_witness :
    countLines (NewCounterCodeInfo ["a.go"] (CommentRulesRegistry.mk (fun _ => none)))
      (oneFile "a.go" ["// c", "x := 1"]) "a.go" "go" = (0, 0, 0) :=
  (countLines_no_rule (NewCounterCodeInfo ["a.go"] (CommentRulesRegistry.mk (fun _ => none)))
    (oneFile "a.go" ["// c", "x := 1"]) "a.go" "go" rfl).1

/-- C16: a line that is empty after trimming, read while `inBlockComment` is true, adds 1
to total and to blank, leaves comment unchanged and leaves `inBlockComment` true. -/
theorem scanLine_blank_in_block (rules : CommentRules) (st : ScanState) (text : String)
    (hb : TrimSpace text = "") (hin : st.inBlockComment = true) :
    scanLine rules st text =
      ⟨st.totalLines + 1, st.commentLines, st.blankLines + 1, true⟩ := by
  rw [scanLine_blank rules st text hb, hin]

theorem scanLine_blank_in_block_witness :
    scanLine goRules ⟨4, 2, 0, true⟩ "  \t " = ⟨5, 2, 1, true⟩ :=
  scanLine_blank_in_block goRules ⟨4, 2, 0, true⟩ "  \t " (by decide) rfl

/-- C17 (as stated, refuted): under the Go rule the non-blank line "// /* x", read outside
a block comment, contains the block-start marker and not the block-end marker, yet
`inBlockComment` is false after it. -/
theorem scanLine_block_start_after_prefix :
    TrimSpace "// /* x" ≠ "" ∧
      Contains "// /* x" goRules.multiLineStart = true ∧
      Contains "// /* x" goRules.multiLineEnd = false ∧
      (scanLine goRules ScanState.init "// /* x").inBlockComment = false := by
  decide

/-- C17 (amended): for every rule and every line read outside a block comment whose
trimmed text is non-empty, does not start with the single-line prefix and contains the
block-start marker at any position, the line is counted as a comment and `inBlockComment`
becomes true unless the trimmed text also contains the block-end marker. -/
theorem scanLine_block_start_anywhere (rules : CommentRules) (st : ScanState) (text : String)
    (hb : TrimSpace text ≠ "") (hout : st.inBlockComment = false)
    (hp : HasPrefix (TrimSpace text) rules.singleLine = false)
    (hs : Contains (TrimSpace text) rules.multiLineStart = true) :
    scanLine rules st text =
      ⟨st.totalLines + 1, st.commentLines + 1, st.blankLines,
        !Contains (TrimSpace text) rules.multiLineEnd⟩ := by
  simp only [scanLine, if_neg hb, hout, hp, hs]
  cases he : Contains (TrimSpace text) rules.multiLineEnd <;> simp

theorem scanLine_block_start_anywhere_witness :
    scanLine goRules ⟨0, 0, 0, false⟩ "x := 1 /* note" = ⟨1, 1, 0, true⟩ :=
  scanLine_block_start_anywhere goRules ⟨0, 0, 0, false⟩ "x := 1 /* note"
    (by decide) rfl (by decide) (by decide)

/-- C18 (as stated, refuted): under a rule whose single-line prefix is empty, the trimmed
text of an empty line starts with the prefix, yet the line, read outside a block comment,
is counted as blank and comment does not grow. -/
theorem scanLine_prefix_on_blank_line :
    HasPrefix (TrimSpace "") (CommentRules.mk "" "/*" "*/").singleLine = true ∧
      ScanState.init.inBlockComment = false ∧
      scanLine (CommentRules.mk "" "/*" "*/") ScanState.init "" = ⟨1, 0, 1, false⟩ := by
  decide

/-- C18 (amended): for every rule and every line read outside a block comment whose
trimmed text is non-empty and starts with the single-line prefix, comment grows by exactly
1 and `inBlockComment` stays false, also when the line contains the block-start marker. -/
theorem scanLine_single_line_prefix (rules : CommentRules) (st : ScanState) (text : String)
    (hb : TrimSpace text ≠ "") (hout : st.inBlockComment = false)
    (hp : HasPrefix (TrimSpace text) rules.singleLine = true) :
    scanLine rules st text = ⟨st.totalLines + 1, st.commentLines + 1, st.blankLines, false⟩ := by
  simp [scanLine, hb, hout, hp]

theorem scanLine_single_line_prefix_witness :
    Contains (TrimSpace "  // /* x") goRules.multiLineStart = true ∧
      scanLine goRules ⟨0, 0, 0, false⟩ "  // /* x" = ⟨1, 1, 0, false⟩ :=
  ⟨by decide,
    scanLine_single_line_prefix goRules ⟨0, 0, 0, false⟩ "  // /* x" (by decide) rfl
      (by decide)⟩

/-- C19: under a rule whose block-end marker is a substring of its block-start marker,
`inBlockComment` is false after every line of every file. The Python rule of `main`, with
both markers equal, is such a rule, and on the lines of a three-line docstring the scan
gives total 3, comment 2, blank 0: the line between the delimiters is not a comment. -/
theorem scanLines_same_marker (rules : CommentRules) (lines : List String)
    (h : Contains rules.multiLineStart rules.multiLineEnd = true) :
    (scanLines rules ScanState.init lines).inBlockComment = false ∧
      mainRegistry.getRules "python" = some pythonRules ∧
      Contains pythonRules.multiLineStart pythonRules.multiLineEnd = true ∧
      scanLines pythonRules ScanState.init ["\"\"\"", "text", "\"\"\""] = ⟨3, 2, 0, false⟩ ∧
      countLines (NewCounterCodeInfo ["d.py"] mainRegistry)
        (oneFile "d.py" ["\"\"\"", "text", "\"\"\""]) "d.py" "python" = (3, 2, 0) := by
  have key : ∀ (ls : List String) (st : ScanState), st.inBlockComment = false →
      (scanLines rules st ls).inBlockComment = false := by
    intro ls
    induction ls with
    | nil => intro st hst; exact hst
    | cons text rest ih =>
      intro st hst
      rw [scanLines_cons]
      exact ih _ (scanLine_same_marker rules h st text hst)
  exact ⟨key lines ScanState.init rfl, by decide, by decide, by decide, by decide⟩

theorem scanLines_same_marker_witness :
    (scanLines pythonRules ScanState.init ["\"\"\"", "text"]).inBlockComment = false :=
  (scanLines_same_marker pythonRules ["\"\"\"", "text"] (by decide)).1

/-- C20: every language that `detectLanguage` returns is one of python, javascript, go,
cpp, java and has a rule in the registry that `main` builds, so with that registry the
lookup of the rule in `countLines` does not fail. -/
theorem detectLanguage_has_rule (c : CounterCodeInfo) (filename language : String)
    (hd : (detectLanguage c filename).1 = (language, true)) :
    language ∈ ["python", "javascript", "go", "cpp", "java"] ∧
      (∃ rules : CommentRules, mainRegistry.getRules language = some rules) ∧
      (c.registry = mainRegistry → c.registry.getRules language ≠ none) := by
  have hl := lookup_of_detectLanguage c filename language hd
  have hv := lookup_values _ language hl
  have hex : ∃ rules : CommentRules, mainRegistry.getRules language = some rules := by
    simp only [List.mem_cons, List.mem_singleton, List.not_mem_nil, or_false] at hv
    rcases hv with rfl | rfl | rfl | rfl | rfl
    · exact ⟨pythonRules, by decide⟩
    · exact ⟨goRules, by decide⟩
    · exact ⟨goRules, by decide⟩
    · exact ⟨goRules, by decide⟩
    · exact ⟨goRules, by decide⟩
  refine ⟨hv, hex, ?_⟩
  intro hc
  obtain ⟨rules, hrules⟩ := hex
  rw [hc, hrules]
  simp

theorem detectLanguage_has_rule_witness :
    ∃ rules : CommentRules, mainRegistry.getRules "cpp" = some rules :=
  (detectLanguage_has_rule (NewCounterCodeInfo ["x.h"] mainRegistry) "x.h" "cpp"
    (by decide)).2.1

end CounterCode
